import Mathlib

/-!
Shallow embedding of the core RAG pipeline of this repository:
`src/scripts/ingest_rag.py` (chunking, L2 normalization, batched
ingestion into the vector index) and `src/agents/kai_agent/rag_tools.py`
(the vector-search tool).

Modelling conventions:
* Python strings are `List Char`; `str.strip()` becomes `stripChars`,
  with whitespace modelled by `Char.isWhitespace`.
* Python floats are idealized as real numbers `ℝ`; `np.linalg.norm` is
  the square root of the sum of squares.
* Network boundaries (the embedding provider and the Qdrant index) are
  oracle functions passed as arguments; the search tool additionally
  returns the list of network calls it issued, so that "no network call
  happens" is expressible.
* The random uuid4 point identifiers are not modelled: no verified
  property mentions them.
-/

namespace DemoRag

/-- Python `str.strip()` on a list of characters: drop whitespace from
both ends. -/
def stripChars (s : List Char) : List Char :=
  ((s.dropWhile Char.isWhitespace).reverse.dropWhile Char.isWhitespace).reverse

/-- Ceiling division on naturals, `(n + d - 1) / d`. -/
def ceilDiv (n d : Nat) : Nat := (n + d - 1) / d

/-- The `while i < len(text)` loop of `chunk_text` in
`src/scripts/ingest_rag.py`: take the window `text[i : i+chunk_size]`,
strip it, keep it when non-empty, and advance `i` by
`max(1, chunk_size - overlap)`. -/
def chunkLoop (t : List Char) (cs ov : Nat) (i : Nat) : List (List Char) :=
  if _h : i < t.length then
    let c := stripChars ((t.drop i).take cs)
    let rest := chunkLoop t cs ov (i + max 1 (cs - ov))
    if c.isEmpty then rest else c :: rest
  else []
termination_by t.length - i
decreasing_by
  have h1 : 1 ≤ max 1 (cs - ov) := Nat.le_max_left _ _
  omega

/-- `chunk_text` from `src/scripts/ingest_rag.py`: strip the input,
return `[]` when the stripped text is empty, otherwise run the window
loop from offset 0.  The Python defaults are `chunk_size = 1000`,
`overlap = 120`; callers in this file pass them explicitly. -/
def chunk_text (text : List Char) (chunk_size overlap : Nat) : List (List Char) :=
  let t := stripChars text
  if t.isEmpty then [] else chunkLoop t chunk_size overlap 0

/-- Transcription of the Chunker contract of spec section 4.1, used as
the second definition of the refinement claim about `chunk_text`: trim
the input (empty input gives the empty sequence); windows are taken at
offsets `0, step, 2*step, …` below the text length, with
`step = max 1 (chunk_size - overlap)`; each window spans
`[offset, offset+chunk_size)` clipped to the text length, then trimmed;
trimmed-empty windows are dropped. -/
def chunkSpec (text : List Char) (chunk_size overlap : Nat) : List (List Char) :=
  let t := stripChars text
  if t.isEmpty then []
  else
    let step := max 1 (chunk_size - overlap)
    (((List.range (ceilDiv t.length step)).map
        (fun j => stripChars ((t.drop (j * step)).take chunk_size))).filter
      (fun c => !c.isEmpty))

/-- The number of windows of the chunking pass that are dropped because
they strip to the empty string (same offsets and windows as
`chunkSpec`). -/
def droppedCount (text : List Char) (chunk_size overlap : Nat) : Nat :=
  let t := stripChars text
  let step := max 1 (chunk_size - overlap)
  (((List.range (ceilDiv t.length step)).map
      (fun j => stripChars ((t.drop (j * step)).take chunk_size))).filter
    (fun c => c.isEmpty)).length

/-- `np.linalg.norm` on a vector of idealized reals: the square root of
the sum of squares. -/
noncomputable def l2norm (vec : List ℝ) : ℝ :=
  Real.sqrt ((vec.map (fun x => x * x)).sum)

/-- `l2_normalize` from `src/scripts/ingest_rag.py` (the function
`_l2_normalize` in `src/agents/kai_agent/rag_tools.py` is
character-for-character the same): if the norm is zero return the input
unchanged, otherwise divide every component by the norm. -/
noncomputable def l2_normalize (vec : List ℝ) : List ℝ :=
  if l2norm vec = 0 then vec else vec.map (fun x => x / l2norm vec)

/-- The payload stored with an index entry, a dict whose three keys may
each be missing (`none`). -/
structure Payload where
  source : Option (List Char)
  chunk_index : Option Nat
  text : Option (List Char)
deriving DecidableEq

/-- A search hit returned by the vector index: a score and an optional
payload (`h.payload` may be `None` in the client API). -/
structure Hit where
  score : ℝ
  payload : Option Payload

/-- One element of the `results` list built by `rag_search`. -/
structure RagResult where
  score : ℝ
  source : Option (List Char)
  chunk_index : Option Nat
  text : Option (List Char)

/-- The payload defaulted to when a hit carries none: `h.payload or {}`
in the source, an empty dict in which every key is missing. -/
def emptyPayload : Payload := ⟨none, none, none⟩

/-- The body of the result-building loop of `rag_search`:
`{"score": float(h.score), "source": payload.get("source"),
"chunk_index": payload.get("chunk_index"), "text": payload.get("text")}`
with `payload = h.payload or {}`. -/
def hitToResult (h : Hit) : RagResult :=
  let p := h.payload.getD emptyPayload
  ⟨h.score, p.source, p.chunk_index, p.text⟩

/-- A network call issued by the search tool: one embedding request
(carrying the text sent) or one index query (carrying the limit
forwarded). -/
inductive NetCall
  | embedCall (queryText : List Char)
  | indexCall (limit : Int)
deriving DecidableEq

/-- The observable outcome of `rag_search`: the validation-error dict
`{"status": "error", "message": ...}`, the uncaught `ValueError` when
`[emb] = emb_res.embeddings` does not receive exactly one embedding, or
the success dict `{"status": "ok", "results": ...}`. -/
inductive RagOutcome
  | errorDict (message : List Char)
  | unpackError
  | ok (results : List RagResult)

/-- `rag_search` from `src/agents/kai_agent/rag_tools.py`.  The
embedding provider and the vector index are oracle functions; the
second component of the result is the ordered list of network calls
issued.  Notes kept faithful to the source: the guard is
`not query or not query.strip()`; the text embedded is
`query.strip()`; `int(limit)` is the identity on an integer limit; the
two duck-typed client branches (`qc.search` vs `qc.query_points`) issue
the same query and produce the same hits list, modelled as the single
oracle `indexQ`. -/
noncomputable def rag_search (embedQ : List Char → List (List ℝ))
    (indexQ : List ℝ → Int → List Hit)
    (query : List Char) (limit : Int) : RagOutcome × List NetCall :=
  if query.isEmpty || (stripChars query).isEmpty then
    (.errorDict "query is required".data, [])
  else
    match embedQ (stripChars query) with
    | [emb] =>
      let qvec := l2_normalize emb
      let hits := indexQ qvec limit
      (.ok (hits.map hitToResult),
        [.embedCall (stripChars query), .indexCall limit])
    | _ => (.unpackError, [.embedCall (stripChars query)])

/-- The error that aborts an ingestion run.  The only exception the
modelled code itself raises is the Python `IndexError` coming from
`batch[j]` when the provider returns more embeddings than the batch has
texts. -/
inductive IngestError
  | indexError
deriving DecidableEq

/-- An index entry as built by `main` in `src/scripts/ingest_rag.py`:
the normalized vector and the payload
`{"source": fp.name, "chunk_index": idx, "text": batch[j]}`.  The
random uuid4 identifier is not modelled (no claim mentions it). -/
structure Point where
  vector : List ℝ
  payload : Payload

/-- The inner loop `for j, emb in enumerate(result.embeddings)` of
`main`, building one point per returned embedding; `batch[j]` raises
`IndexError` when `j` is out of range, i.e. when the provider returned
more embeddings than the batch has texts. -/
noncomputable def buildPoints (src : List Char) (start : Nat)
    (batch : List (List Char)) : Nat → List (List ℝ) → Except IngestError (List Point)
  | _, [] => .ok []
  | j, emb :: rest =>
    match batch[j]? with
    | none => .error .indexError
    | some t => do
      let ps ← buildPoints src start batch (j + 1) rest
      pure ({ vector := l2_normalize emb,
              payload := ⟨some src, some (start + j), some t⟩ } :: ps)

/-- The batch size `BATCH = 16` of `src/scripts/ingest_rag.py`. -/
def BATCH : Nat := 16

/-- The batching loop `for start in range(0, len(chunks), BATCH)` of
`main`: slice `chunks[start : start+BATCH]`, call the embedding
provider on the slice, and build points from the returned embeddings
with global indices `start + j`. -/
noncomputable def ingestLoop (e : List (List Char) → List (List ℝ))
    (src : List Char) (chunks : List (List Char)) (start : Nat) :
    Except IngestError (List Point) :=
  if _h : start < chunks.length then
    let batch := (chunks.drop start).take BATCH
    do
      let ps ← buildPoints src start batch 0 (e batch)
      let rest ← ingestLoop e src chunks (start + BATCH)
      pure (ps ++ rest)
  else .ok []
termination_by chunks.length - start
decreasing_by simp [BATCH]; omega

/-- A file seen by the directory walk of `main`. -/
structure FileEntry where
  name : List Char
  ext : List Char
  isDir : Bool
  text : List Char

/-- The file filter of `main`: skip directories, keep only files whose
lower-cased extension is `.md` or `.txt`. -/
def eligible (f : FileEntry) : Bool :=
  !f.isDir &&
    (f.ext.map Char.toLower = ".md".data || f.ext.map Char.toLower = ".txt".data)

/-- The per-file loop of `main`: for every eligible file, chunk its
text with the default parameters `chunk_size = 1000`, `overlap = 120`
and run the batching loop, accumulating all points in file order. -/
noncomputable def ingestFiles (e : List (List Char) → List (List ℝ)) :
    List FileEntry → Except IngestError (List Point)
  | [] => .ok []
  | f :: fs =>
    if eligible f then do
      let ps ← ingestLoop e f.name (chunk_text f.text 1000 120) 0
      let rest ← ingestFiles e fs
      pure (ps ++ rest)
    else ingestFiles e fs

/-- The observable outcome of one ingestion run: the list of upsert
calls that were made (each carrying the entry list it wrote) and either
the reported total (`len(points)` printed on success) or the error that
aborted the run. -/
structure RunTrace where
  upserts : List (List Point)
  outcome : Except IngestError Nat

/-- `main` from `src/scripts/ingest_rag.py` after collection recreation:
accumulate points over all files, then `if points: qc.upsert(...)` —
one upsert of the whole accumulated list, only when it is non-empty —
and report `len(points)`.  An exception raised while embedding
propagates out of `main` before the upsert statement is reached, so a
failed run performs no upsert. -/
noncomputable def mainRun (e : List (List Char) → List (List ℝ))
    (files : List FileEntry) : RunTrace :=
  match ingestFiles e files with
  | .error err => { upserts := [], outcome := .error err }
  | .ok points =>
    { upserts := if points.isEmpty then [] else [points],
      outcome := .ok points.length }

/-! ## Helper lemmas -/

theorem ceilDiv_step (n d : Nat) (hn : 0 < n) (hd : 0 < d) :
    ceilDiv n d = ceilDiv (n - d) d + 1 := by
  unfold ceilDiv
  rcases le_or_lt n d with h | h
  · have h0 : n - d = 0 := by omega
    rw [h0]
    have h1 : (0 + d - 1) / d = 0 := Nat.div_eq_of_lt (by omega)
    rw [h1]
    exact Nat.div_eq_of_lt_le (by omega) (by omega)
  · have h2 : n + d - 1 = (n - d + d - 1) + d := by omega
    rw [h2, Nat.add_div_right _ hd]

theorem chunkLoop_eq (t : List Char) (cs ov : Nat) (i : Nat) :
    chunkLoop t cs ov i =
      ((List.range (ceilDiv (t.length - i) (max 1 (cs - ov)))).map
        (fun j => stripChars ((t.drop (i + j * max 1 (cs - ov))).take cs))).filter
        (fun c => !c.isEmpty) := by
  have hs : 1 ≤ max 1 (cs - ov) := Nat.le_max_left 1 _
  rw [chunkLoop]
  by_cases h : i < t.length
  · simp only [dif_pos h]
    have hn : 0 < t.length - i := by omega
    rw [ceilDiv_step _ _ hn (by omega), List.range_succ_eq_map,
      List.map_cons, List.map_map, List.filter_cons]
    have harg : i + 0 * max 1 (cs - ov) = i := by ring
    rw [harg]
    have hrec := chunkLoop_eq t cs ov (i + max 1 (cs - ov))
    have hlen : t.length - (i + max 1 (cs - ov)) = t.length - i - max 1 (cs - ov) := by
      omega
    rw [hlen] at hrec
    have hoff : ∀ j : Nat, i + Nat.succ j * max 1 (cs - ov)
        = i + max 1 (cs - ov) + j * max 1 (cs - ov) := fun j => by
      rw [Nat.succ_eq_add_one]
      ring
    have hfun : ((fun j => stripChars ((t.drop (i + j * max 1 (cs - ov))).take cs)) ∘
        Nat.succ) = fun j => stripChars ((t.drop
          (i + max 1 (cs - ov) + j * max 1 (cs - ov))).take cs) := by
      funext j
      simp only [Function.comp_apply]
      rw [hoff j]
    rw [hfun, ← hrec]
    by_cases hc : (stripChars ((t.drop i).take cs)).isEmpty
    · simp [hc]
    · simp [hc]
  · simp only [dif_neg h]
    have h0 : t.length - i = 0 := by omega
    have hz : ceilDiv 0 (max 1 (cs - ov)) = 0 := by
      unfold ceilDiv
      exact Nat.div_eq_of_lt (by omega)
    rw [h0, hz]
    simp
termination_by t.length - i
decreasing_by
  omega

theorem chunk_text_eq_spec (text : List Char) (cs ov : Nat) :
    chunk_text text cs ov = chunkSpec text cs ov := by
  unfold chunk_text chunkSpec
  by_cases h : (stripChars text).isEmpty
  · simp [h]
  · simp only [h, Bool.false_eq_true, if_false]
    rw [chunkLoop_eq]
    simp

theorem length_filter_split (l : List (List Char)) :
    ((l.filter (fun c => !c.isEmpty)).length + (l.filter (fun c => c.isEmpty)).length)
      = l.length := by
  induction l with
  | nil => rfl
  | cons a l ih =>
    by_cases h : a.isEmpty <;> simp [List.filter_cons, h] <;> omega

theorem sumSq_nonneg (l : List ℝ) : 0 ≤ (l.map (fun x => x * x)).sum := by
  apply List.sum_nonneg
  intro x hx
  rcases List.mem_map.mp hx with ⟨y, _, rfl⟩
  exact mul_self_nonneg y

theorem sumSq_map_div (l : List ℝ) (c : ℝ) :
    ((l.map (fun x => x / c)).map (fun x => x * x)).sum
      = ((l.map (fun x => x * x)).sum) / (c * c) := by
  induction l with
  | nil => simp
  | cons a l ih =>
    simp only [List.map_cons, List.sum_cons, ih]
    rw [div_mul_div_comm, add_div]

theorem rag_search_success (embedQ : List Char → List (List ℝ))
    (indexQ : List ℝ → Int → List Hit) (query : List Char) (limit : Int)
    (v : List ℝ) (hq : ¬(stripChars query).isEmpty = true)
    (he : embedQ (stripChars query) = [v]) :
    rag_search embedQ indexQ query limit =
      (.ok ((indexQ (l2_normalize v) limit).map hitToResult),
        [.embedCall (stripChars query), .indexCall limit]) := by
  have hqs : (stripChars query).isEmpty = false := by
    cases hb : (stripChars query).isEmpty
    · rfl
    · exact absurd hb hq
  have hqe : query.isEmpty = false := by
    cases query with
    | nil => exact absurd (by decide : (stripChars ([] : List Char)).isEmpty = true) hq
    | cons a l => rfl
  unfold rag_search
  rw [hqe, hqs, he]
  simp

/-! ## Claims -/

/-- C4.  A query that is empty or strips to whitespace-only text is
rejected with the validation-error dict `{"status": "error", "message":
"query is required"}` immediately: the list of network calls issued is
empty — no embedding request and no index query. -/
theorem c4_empty_query (embedQ : List Char → List (List ℝ))
    (indexQ : List ℝ → Int → List Hit) (query : List Char) (limit : Int)
    (h : stripChars query = []) :
    rag_search embedQ indexQ query limit
      = (.errorDict "query is required".data, []) := by
  unfold rag_search
  have hs : (stripChars query).isEmpty = true := by rw [h]; rfl
  rw [hs]
  simp

/-- C4 witness: the whitespace-only query `"  "` with `k = 4`. -/
theorem c4_witness : stripChars "  ".data = []
    ∧ rag_search (fun _ => [[]]) (fun _ _ => []) "  ".data 4
        = (.errorDict "query is required".data, []) :=
  ⟨by decide, c4_empty_query _ _ _ _ (by decide)⟩

/-- C2 counterexample.  The claim says `k = 0` (or negative `k`) yields
a `ValidationError` and is not forwarded to the index.  But
`rag_search` never inspects `limit`: with `k = 0` it answers with the
success dict and issues the index query, forwarding `limit = 0`. -/
theorem c2_counterexample :
    rag_search (fun _ => [[]]) (fun _ _ => []) "hi".data 0
      = (.ok [], [.embedCall "hi".data, .indexCall 0]) := by
  rw [rag_search_success (fun _ => [[]]) (fun _ _ => []) "hi".data 0 []
    (by decide) rfl]
  have hh : stripChars "hi".data = "hi".data := by decide
  rw [hh]
  simp

/-- C2, amended.  `rag_search` performs no validation of `k` at all:
for every limit, including `0` and negative values, the limit is
forwarded unchanged to the index query (the only check the function
performs is the emptiness check on the query text). -/
theorem c2_no_limit_validation (embedQ : List Char → List (List ℝ))
    (indexQ : List ℝ → Int → List Hit) (query : List Char) (limit : Int)
    (v : List ℝ) (hq : ¬(stripChars query).isEmpty = true)
    (he : embedQ (stripChars query) = [v]) :
    (rag_search embedQ indexQ query limit).2
      = [.embedCall (stripChars query), .indexCall limit] := by
  rw [rag_search_success embedQ indexQ query limit v hq he]

/-- C2 witness: the negative limit `-1` is forwarded to the index. -/
theorem c2_witness : ¬(stripChars "hi".data).isEmpty = true
    ∧ (rag_search (fun _ => [[]]) (fun _ _ => []) "hi".data (-1)).2
        = [.embedCall (stripChars "hi".data), .indexCall (-1)] :=
  ⟨by decide, c2_no_limit_validation _ _ _ _ [] (by decide) rfl⟩

/-- C8.  On a successful search the result list is exactly the hit list
returned by the index, mapped in order (no re-sorting, one result per
hit) through `hitToResult`, which reads `score` from the hit and
`source`, `chunk_index`, `text` from the payload; a missing payload (or
a missing payload field) becomes an explicit `none`, never a crash. -/
theorem c8_hit_mapping (embedQ : List Char → List (List ℝ))
    (indexQ : List ℝ → Int → List Hit) (query : List Char) (limit : Int)
    (v : List ℝ) (hq : ¬(stripChars query).isEmpty = true)
    (he : embedQ (stripChars query) = [v]) :
    (rag_search embedQ indexQ query limit).1
        = .ok ((indexQ (l2_normalize v) limit).map hitToResult)
      ∧ (∀ s : ℝ, hitToResult ⟨s, none⟩ = ⟨s, none, none, none⟩)
      ∧ (∀ (s : ℝ) (p : Payload), hitToResult ⟨s, some p⟩
          = ⟨s, p.source, p.chunk_index, p.text⟩) := by
  refine ⟨?_, fun s => rfl, fun s p => rfl⟩
  rw [rag_search_success embedQ indexQ query limit v hq he]

theorem buildPoints_ok (src : List Char) (start : Nat) (batch : List (List Char)) :
    ∀ (j : Nat) (embs : List (List ℝ)), j + embs.length ≤ batch.length →
    ∃ ps, buildPoints src start batch j embs = .ok ps ∧
      ps.map Point.payload
        = (((batch.drop j).take embs.length).enumFrom (start + j)).map
            (fun q => ⟨some src, some q.1, some q.2⟩) := by
  intro j embs
  induction embs generalizing j with
  | nil =>
    intro _
    exact ⟨[], rfl, by simp⟩
  | cons emb rest ih =>
    intro h
    have hj : j < batch.length := by
      simp only [List.length_cons] at h
      omega
    have hbj : batch[j]? = some batch[j] := List.getElem?_eq_getElem hj
    obtain ⟨ps, hps, hmap⟩ := ih (j + 1) (by
      simp only [List.length_cons] at h
      omega)
    refine ⟨Point.mk (l2_normalize emb)
        ⟨some src, some (start + j), some batch[j]⟩ :: ps, ?_, ?_⟩
    · simp only [buildPoints, hbj, hps]
      rfl
    · simp only [List.map_cons, hmap, List.drop_eq_getElem_cons hj, List.length_cons,
        List.take_succ_cons, List.enumFrom_cons]
      have harith : start + j + 1 = start + (j + 1) := by omega
      rw [harith]

theorem ingestLoop_ok (e : List (List Char) → List (List ℝ)) (src : List Char)
    (chunks : List (List Char)) (he : ∀ b, (e b).length = b.length) (start : Nat) :
    ∃ ps, ingestLoop e src chunks start = .ok ps ∧
      ps.map Point.payload
        = ((chunks.drop start).enumFrom start).map
            (fun q => ⟨some src, some q.1, some q.2⟩) := by
  by_cases h : start < chunks.length
  · obtain ⟨ps2, hps2, hmap2⟩ := ingestLoop_ok e src chunks he (start + BATCH)
    have hblen : (e ((chunks.drop start).take BATCH)).length
        = ((chunks.drop start).take BATCH).length := he _
    obtain ⟨ps1, hps1, hmap1⟩ := buildPoints_ok src start ((chunks.drop start).take BATCH)
      0 (e ((chunks.drop start).take BATCH)) (by omega)
    refine ⟨ps1 ++ ps2, ?_, ?_⟩
    · rw [ingestLoop, dif_pos h]
      simp only [hps1, hps2]
      rfl
    · rw [List.map_append, hmap1, hmap2]
      rw [hblen, List.drop_zero, List.take_length, Nat.add_zero]
      have hsplit : chunks.drop start
          = (chunks.drop start).take BATCH ++ chunks.drop (start + BATCH) := by
        rw [← List.drop_drop]
        exact (List.take_append_drop BATCH (chunks.drop start)).symm
      conv_rhs => rw [hsplit]
      rw [List.enumFrom_append, List.map_append]
      by_cases hb : chunks.length ≤ start + BATCH
      · rw [List.drop_eq_nil_of_le hb]
        simp
      · have hlen : ((chunks.drop start).take BATCH).length = BATCH := by
          rw [List.length_take, List.length_drop]
          omega
        rw [hlen]
  · refine ⟨[], ?_, ?_⟩
    · rw [ingestLoop, dif_neg h]
    · rw [List.drop_eq_nil_of_le (by omega)]
      simp
termination_by chunks.length - start
decreasing_by
  simp only [BATCH]
  omega

theorem ingestLoop_le (e : List (List Char) → List (List ℝ)) (src : List Char)
    (chunks : List (List Char)) (he : ∀ b, (e b).length ≤ b.length) (start : Nat) :
    ∃ ps, ingestLoop e src chunks start = .ok ps := by
  by_cases h : start < chunks.length
  · obtain ⟨ps2, hps2⟩ := ingestLoop_le e src chunks he (start + BATCH)
    obtain ⟨ps1, hps1, _⟩ := buildPoints_ok src start ((chunks.drop start).take BATCH)
      0 (e ((chunks.drop start).take BATCH))
      (by
        have := he ((chunks.drop start).take BATCH)
        omega)
    refine ⟨ps1 ++ ps2, ?_⟩
    rw [ingestLoop, dif_pos h]
    simp only [hps1, hps2]
    rfl
  · exact ⟨[], by rw [ingestLoop, dif_neg h]⟩
termination_by chunks.length - start
decreasing_by
  simp only [BATCH]
  omega

theorem buildPoints_over (src : List Char) (start : Nat) (batch : List (List Char)) :
    ∀ (j : Nat) (embs : List (List ℝ)), batch.length - j < embs.length →
    buildPoints src start batch j embs = .error .indexError := by
  intro j embs
  induction embs generalizing j with
  | nil =>
    intro h
    simp only [List.length_nil] at h
    omega
  | cons emb rest ih =>
    intro h
    cases hbj : batch[j]? with
    | none => simp only [buildPoints, hbj]
    | some t =>
      have hj : j < batch.length := by
        by_contra hc
        rw [List.getElem?_eq_none (by omega)] at hbj
        exact Option.noConfusion hbj
      have hrec := ih (j + 1) (by
        simp only [List.length_cons] at h
        omega)
      simp only [buildPoints, hbj, hrec]
      rfl

theorem mainRun_error_no_upsert (e : List (List Char) → List (List ℝ))
    (files : List FileEntry) (err : IngestError)
    (h : (mainRun e files).outcome = .error err) :
    (mainRun e files).upserts = [] := by
  unfold mainRun at h ⊢
  cases hif : ingestFiles e files with
  | error e2 => simp [hif]
  | ok points =>
    rw [hif] at h
    simp at h

theorem ingestFiles_no_chunks (e : List (List Char) → List (List ℝ))
    (files : List FileEntry)
    (hz : ∀ f ∈ files, eligible f = true → chunk_text f.text 1000 120 = []) :
    ingestFiles e files = .ok [] := by
  induction files with
  | nil => rfl
  | cons f fs ih =>
    have ihz : ∀ g ∈ fs, eligible g = true → chunk_text g.text 1000 120 = [] :=
      fun g hg => hz g (List.mem_cons_of_mem f hg)
    by_cases helig : eligible f
    · have hcf : chunk_text f.text 1000 120 = [] := hz f (List.mem_cons_self f fs) helig
      have h0 : ingestLoop e f.name (chunk_text f.text 1000 120) 0 = .ok [] := by
        rw [hcf, ingestLoop]
        rfl
      simp only [ingestFiles, helig, if_true, h0, ih ihz]
      rfl
    · simp only [ingestFiles, helig, Bool.false_eq_true, if_false]
      exact ih ihz

/-- C1 counterexample.  The claim says a provider response whose vector
count differs from the batch size raises an `EmbeddingProviderError`.
With a provider that returns zero vectors for a one-text batch (a count
mismatch), the ingestion loop raises nothing at all: it succeeds with
an empty point list. -/
theorem c1_counterexample :
    ((fun _ => ([] : List (List ℝ))) [("ab".data : List Char)]).length
        ≠ ([("ab".data : List Char)] : List (List Char)).length
    ∧ ingestLoop (fun _ => []) "doc.md".data ["ab".data] 0 = .ok [] := by
  refine ⟨by decide, ?_⟩
  have h16 : ingestLoop (fun _ => ([] : List (List ℝ))) "doc.md".data ["ab".data] 16
      = .ok [] := by
    rw [ingestLoop]
    norm_num
  rw [ingestLoop]
  norm_num [BATCH, buildPoints, h16]
  rfl

/-- C1, amended.  The code has no count check and no
`EmbeddingProviderError`: a batch response with at most as many vectors
as input texts (in particular a short response — a count mismatch)
never raises any error, entries being built only for the returned
vectors; a response with more vectors than texts makes the inner loop
fail with an uncaught `IndexError` from `batch[j]`; and a run that
fails never reaches the upsert statement, so no upsert occurs. -/
theorem c1_mismatch_behavior :
    (∀ (e : List (List Char) → List (List ℝ)) (src : List Char)
        (chunks : List (List Char)), (∀ b, (e b).length ≤ b.length) →
      ∃ ps, ingestLoop e src chunks 0 = .ok ps)
    ∧ (∀ (src : List Char) (start : Nat) (batch : List (List Char))
        (embs : List (List ℝ)), batch.length < embs.length →
        buildPoints src start batch 0 embs = .error .indexError)
    ∧ (∀ (e : List (List Char) → List (List ℝ)) (files : List FileEntry)
        (err : IngestError), (mainRun e files).outcome = .error err →
        (mainRun e files).upserts = []) :=
  ⟨fun e src chunks he => ingestLoop_le e src chunks he 0,
   fun src start batch embs h => buildPoints_over src start batch 0 embs (by omega),
   mainRun_error_no_upsert⟩

/-- C1 witness: a short response (0 vectors for 1 text) succeeds; an
over-long response (2 vectors for 1 text) yields the `IndexError`; a
concrete failing run performs no upsert. -/
theorem c1_witness :
    (∀ b : List (List Char), ((fun _ => ([] : List (List ℝ))) b).length ≤ b.length)
    ∧ (∃ ps, ingestLoop (fun _ => ([] : List (List ℝ))) "doc.md".data ["ab".data] 0
        = .ok ps)
    ∧ (([("hi".data : List Char)] : List (List Char)).length
        < ([[], []] : List (List ℝ)).length)
    ∧ buildPoints "a.md".data 0 ["hi".data] 0 [[], []] = .error .indexError
    ∧ (mainRun (fun _ => [[], []]) [⟨"a.md".data, ".md".data, false, "hi".data⟩]).outcome
        = .error .indexError
    ∧ (mainRun (fun _ => [[], []]) [⟨"a.md".data, ".md".data, false, "hi".data⟩]).upserts
        = [] := by
  have houtcome : (mainRun (fun _ => [[], []])
      [⟨"a.md".data, ".md".data, false, "hi".data⟩]).outcome = .error .indexError := by
    have hchunk : chunk_text "hi".data 1000 120 = ["hi".data] := by
      rw [chunk_text_eq_spec]
      decide
    have hloop : ingestLoop (fun _ => [[], []]) "a.md".data ["hi".data] 0
        = .error .indexError := by
      rw [ingestLoop]
      norm_num [BATCH, buildPoints]
      rfl
    have hfiles : ingestFiles (fun _ => [[], []])
        [⟨"a.md".data, ".md".data, false, "hi".data⟩] = .error .indexError := by
      have helig : eligible ⟨"a.md".data, ".md".data, false, "hi".data⟩ = true := by
        decide
      simp only [ingestFiles, helig, if_true, hchunk, hloop]
      rfl
    unfold mainRun
    rw [hfiles]
  refine ⟨fun b => by simp, c1_mismatch_behavior.1 _ _ _ (fun b => by simp),
    by decide, c1_mismatch_behavior.2.1 _ _ _ _ (by decide), houtcome,
    c1_mismatch_behavior.2.2 _ _ _ houtcome⟩

/-- C9.  For one ingested document, under the provider contract of one
vector per input text, the ingestion loop succeeds and the payloads of
the points it builds are exactly the enumeration of the chunk sequence:
`chunk_index` is the 0-based position of the chunk in the document
(hence strictly increasing), `text` is the chunk text and `source` the
file name, despite batching in groups of `BATCH = 16`. -/
theorem c9_chunk_index_payload (e : List (List Char) → List (List ℝ))
    (src : List Char) (chunks : List (List Char))
    (he : ∀ b, (e b).length = b.length) :
    ∃ ps, ingestLoop e src chunks 0 = .ok ps
      ∧ ps.map Point.payload
          = chunks.enum.map (fun q => ⟨some src, some q.1, some q.2⟩) := by
  obtain ⟨ps, hps, hmap⟩ := ingestLoop_ok e src chunks he 0
  exact ⟨ps, hps, by rw [hmap, List.drop_zero]; rfl⟩

/-- C9 witness: a two-chunk document, embedded by a provider returning
one vector per text, yields payloads with chunk indices 0 and 1. -/
theorem c9_witness :
    (∀ b : List (List Char),
      ((fun (c : List (List Char)) => c.map (fun _ => ([] : List ℝ))) b).length
        = b.length)
    ∧ ∃ ps, ingestLoop (fun c => c.map (fun _ => ([] : List ℝ))) "a.md".data
          ["ab".data, "cd".data] 0 = .ok ps
        ∧ ps.map Point.payload
            = (["ab".data, "cd".data] : List (List Char)).enum.map
                (fun q => ⟨some "a.md".data, some q.1, some q.2⟩) :=
  ⟨fun b => by simp, c9_chunk_index_payload _ _ _ (fun b => by simp)⟩

/-- C10.  One run upserts at most once and never with an empty entry
list; and a corpus producing zero chunks (every eligible file chunks to
nothing) makes no upsert call at all and reports a written total of 0. -/
theorem c10_upsert_once (e : List (List Char) → List (List ℝ))
    (files : List FileEntry) :
    ((mainRun e files).upserts.length ≤ 1
      ∧ ∀ u ∈ (mainRun e files).upserts, u ≠ [])
    ∧ ((∀ f ∈ files, eligible f = true → chunk_text f.text 1000 120 = []) →
        (mainRun e files).upserts = [] ∧ (mainRun e files).outcome = .ok 0) := by
  constructor
  · unfold mainRun
    cases hif : ingestFiles e files with
    | error err => simp
    | ok points =>
      by_cases hp : points.isEmpty
      · simp [hp]
      · simp only [hp, Bool.false_eq_true, if_false]
        refine ⟨by simp, ?_⟩
        intro u hu
        rw [List.mem_singleton] at hu
        subst hu
        intro hnil
        rw [hnil] at hp
        exact hp rfl
  · intro hz
    have hif := ingestFiles_no_chunks e files hz
    unfold mainRun
    rw [hif]
    exact ⟨rfl, rfl⟩

/-- C10 witness: a corpus of one eligible file whose text is pure
whitespace produces zero chunks, no upsert, and a reported total 0. -/
theorem c10_witness :
    ((mainRun (fun _ => []) [⟨"a.md".data, ".md".data, false, "  ".data⟩]).upserts.length
        ≤ 1
      ∧ ∀ u ∈ (mainRun (fun _ => [])
          [⟨"a.md".data, ".md".data, false, "  ".data⟩]).upserts, u ≠ [])
    ∧ ((mainRun (fun _ => []) [⟨"a.md".data, ".md".data, false, "  ".data⟩]).upserts = []
        ∧ (mainRun (fun _ => [])
            [⟨"a.md".data, ".md".data, false, "  ".data⟩]).outcome = .ok 0) :=
  ⟨(c10_upsert_once (fun _ => []) [⟨"a.md".data, ".md".data, false, "  ".data⟩]).1,
   (c10_upsert_once (fun _ => []) [⟨"a.md".data, ".md".data, false, "  ".data⟩]).2
     (fun f hf _ => by
       rcases List.mem_singleton.mp hf with rfl
       decide)⟩

/-- C8 witness: two hits, one with a payload whose `chunk_index` field
is missing and one with no payload at all, are mapped in order. -/
theorem c8_witness : ¬(stripChars "q".data).isEmpty = true
    ∧ ((rag_search (fun _ => [[]])
          (fun _ _ => [⟨(1 : ℝ), some ⟨some "a".data, none, some "t".data⟩⟩,
            ⟨(0 : ℝ), none⟩]) "q".data 2).1
        = .ok (([⟨(1 : ℝ), some ⟨some "a".data, none, some "t".data⟩⟩,
            ⟨(0 : ℝ), none⟩] : List Hit).map hitToResult)
      ∧ (∀ s : ℝ, hitToResult ⟨s, none⟩ = ⟨s, none, none, none⟩)
      ∧ (∀ (s : ℝ) (p : Payload), hitToResult ⟨s, some p⟩
          = ⟨s, p.source, p.chunk_index, p.text⟩)) :=
  ⟨by decide, c8_hit_mapping _ _ _ _ [] (by decide) rfl⟩

/-- C3 counterexample.  The claim says the chunk count of
`chunk(T, size, overlap)` equals `ceil((len(T) - overlap) / (size - overlap))`
up to windows dropped by trailing trim.  For the 10-character text
`"abcdefghij"` with `size = 5`, `overlap = 2` the formula gives 3, but
`chunk_text` produces 4 chunks while no window at all is dropped by
trimming: the loop keeps producing windows while `i < len(text)`, past
the first window that already reaches the end of the text. -/
theorem c3_counterexample :
    (chunk_text "abcdefghij".data 5 2).length = 4
      ∧ ceilDiv ("abcdefghij".data.length - 2) (5 - 2) = 3
      ∧ droppedCount "abcdefghij".data 5 2 = 0 := by
  refine ⟨?_, by decide, by decide⟩
  rw [chunk_text_eq_spec]
  decide

/-- C3, amended.  For a text whose stripped form is non-empty and
`overlap < chunk_size`, the number of chunks plus the number of windows
dropped because they trim to empty (anywhere, not only at the tail)
equals `ceil(len(stripped T) / (chunk_size - overlap))` — the window
count of the `while i < len` loop, whose numerator is the full text
length, not `len(T) - overlap`. -/
theorem c3_chunk_count (text : List Char) (cs ov : Nat) (hov : ov < cs)
    (hne : ¬(stripChars text).isEmpty) :
    (chunk_text text cs ov).length + droppedCount text cs ov
      = ceilDiv (stripChars text).length (cs - ov) := by
  rw [chunk_text_eq_spec]
  unfold chunkSpec droppedCount
  have hstep : max 1 (cs - ov) = cs - ov := by omega
  simp only [hne, Bool.false_eq_true, if_false, hstep]
  have := length_filter_split ((List.range (ceilDiv (stripChars text).length (cs - ov))).map
      (fun j => stripChars (((stripChars text).drop (j * (cs - ov))).take cs)))
  rw [this]
  simp

/-- C3 witness: the amended count identity evaluated at the text
`"abc"` with `chunk_size = 2`, `overlap = 1`. -/
theorem c3_witness : 1 < 2 ∧ ¬(stripChars "abc".data).isEmpty
    ∧ ((chunk_text "abc".data 2 1).length + droppedCount "abc".data 2 1
        = ceilDiv (stripChars "abc".data).length (2 - 1)) :=
  ⟨by decide, by decide, c3_chunk_count "abc".data 2 1 (by decide) (by decide)⟩

/-- C5.  `chunk_text` first strips the input and returns the empty
sequence on empty input; otherwise it takes windows at offsets
`0, step, 2*step, …` with `step = max 1 (chunk_size - overlap)`, each
window being `[offset, offset + chunk_size)` clipped to the text length
and then trimmed, dropping windows that trim to empty while still
advancing the offset by `step` — i.e. it coincides with the literal
transcription `chunkSpec` of the spec for every text and parameters. -/
theorem c5_chunk_text_spec (text : List Char) (chunk_size overlap : Nat) :
    chunk_text text chunk_size overlap = chunkSpec text chunk_size overlap :=
  chunk_text_eq_spec text chunk_size overlap

/-- C6.  For an all-zero input vector the norm is exactly zero, the
zero-guard branch is taken, and `l2_normalize` returns the vector
unchanged: no division happens. -/
theorem c6_zero_vector (v : List ℝ) (h : ∀ x ∈ v, x = 0) :
    l2_normalize v = v := by
  have hsum : (v.map (fun x => x * x)).sum = 0 := by
    apply List.sum_eq_zero
    intro x hx
    rcases List.mem_map.mp hx with ⟨y, hy, rfl⟩
    rw [h y hy, mul_zero]
  unfold l2_normalize l2norm
  rw [hsum, Real.sqrt_zero, if_pos rfl]

/-- C6 witness: the zero vector of dimension 3 is returned unchanged. -/
theorem c6_witness : (∀ x ∈ [(0 : ℝ), 0, 0], x = 0)
    ∧ l2_normalize [(0 : ℝ), 0, 0] = [(0 : ℝ), 0, 0] := by
  constructor
  · intro x hx
    simp only [List.mem_cons, List.not_mem_nil, or_false] at hx
    rcases hx with h | h | h <;> exact h
  · exact c6_zero_vector _ (by
      intro x hx
      simp only [List.mem_cons, List.not_mem_nil, or_false] at hx
      rcases hx with h | h | h <;> exact h)

/-- C7.  For a vector of nonzero norm, `l2_normalize` divides every
component by the norm, the result has norm exactly 1 (in the idealized
real arithmetic standing in for floating point), and `l2_normalize` is
idempotent. -/
theorem c7_normalize (v : List ℝ) (h : l2norm v ≠ 0) :
    l2_normalize v = v.map (fun x => x / l2norm v)
      ∧ l2norm (l2_normalize v) = 1
      ∧ l2_normalize (l2_normalize v) = l2_normalize v := by
  have hS : 0 ≤ (v.map (fun x => x * x)).sum := sumSq_nonneg v
  have hSne : (v.map (fun x => x * x)).sum ≠ 0 := by
    intro h0
    apply h
    unfold l2norm
    rw [h0, Real.sqrt_zero]
  have h1 : l2_normalize v = v.map (fun x => x / l2norm v) := by
    unfold l2_normalize
    rw [if_neg h]
  have h2 : l2norm (l2_normalize v) = 1 := by
    rw [h1]
    unfold l2norm
    rw [sumSq_map_div, Real.mul_self_sqrt hS, div_self hSne, Real.sqrt_one]
  refine ⟨h1, h2, ?_⟩
  conv_lhs => rw [show l2_normalize (l2_normalize v)
    = if l2norm (l2_normalize v) = 0 then l2_normalize v
      else (l2_normalize v).map (fun x => x / l2norm (l2_normalize v)) from rfl]
  rw [h2]
  norm_num

/-- C7 witness: the three properties evaluated at the vector `[3, 4]`,
whose norm is 5. -/
theorem c7_witness : l2norm [(3 : ℝ), 4] ≠ 0
    ∧ (l2_normalize [(3 : ℝ), 4] = [(3 : ℝ), 4].map (fun x => x / l2norm [(3 : ℝ), 4])
      ∧ l2norm (l2_normalize [(3 : ℝ), 4]) = 1
      ∧ l2_normalize (l2_normalize [(3 : ℝ), 4]) = l2_normalize [(3 : ℝ), 4]) := by
  have hsum : (([(3 : ℝ), 4]).map (fun x => x * x)).sum = 25 := by norm_num
  have hne : l2norm [(3 : ℝ), 4] ≠ 0 := by
    unfold l2norm
    rw [hsum]
    intro h0
    have := Real.sqrt_eq_zero (by norm_num) |>.mp h0
    norm_num at this
  exact ⟨hne, c7_normalize _ hne⟩

end DemoRag
